import Mathlib

/-
Verification of the forte_world scene-graph core (src/src/lib.rs, src/src/dimensions.rs).

The embedding models f32 coordinates as exact rationals: every property checked here
is algebraic or order-theoretic (composition formulas, component-wise min/max
aggregation, strict-inequality comparisons) and does not depend on rounding.
The component set generated by the `define_world!` macro is a closed enum with an
`Empty` default variant plus application-chosen variants carrying payload data; it is
modelled by a variant tag and an opaque payload value.  The effect of the
application-supplied `update` callbacks on the node they receive is modelled by a
function parameter `cb : Node → Node`; each pass additionally returns the list of
callback invocations it performs, in order, each event carrying the exact argument
handed to the callback.
-/

namespace ForteWorld

/-- A 3-component vector, modelling cgmath Vector3 of f32 with exact rational
coordinates. -/
structure Vec3 where
  x : ℚ
  y : ℚ
  z : ℚ
deriving DecidableEq, Repr

/-- Component-wise vector addition (cgmath Vector3 addition, external dependency). -/
def Vec3.add (a b : Vec3) : Vec3 :=
  { x := a.x + b.x, y := a.y + b.y, z := a.z + b.z }

/-- Element-wise vector product (cgmath ElementWise.mul_element_wise, external
dependency). -/
def Vec3.mulElementWise (a b : Vec3) : Vec3 :=
  { x := a.x * b.x, y := a.y * b.y, z := a.z * b.z }

/-- The zero vector (cgmath Vector3::zero). -/
def Vec3.zero : Vec3 := { x := 0, y := 0, z := 0 }

/-- The all-ones vector (identity scale). -/
def Vec3.one : Vec3 := { x := 1, y := 1, z := 1 }

/-- Component-wise order on vectors. -/
def Vec3.le (a b : Vec3) : Prop := a.x ≤ b.x ∧ a.y ≤ b.y ∧ a.z ≤ b.z

instance (a b : Vec3) : Decidable (Vec3.le a b) := by
  unfold Vec3.le; infer_instance

/-- A quaternion, modelling cgmath Quaternion of f32 (scalar part `w`, vector part
`x`, `y`, `z`), external dependency. -/
structure Quat where
  w : ℚ
  x : ℚ
  y : ℚ
  z : ℚ
deriving DecidableEq, Repr

/-- Hamilton product, as implemented by cgmath Mul for Quaternion (external
dependency). -/
def Quat.mul (a b : Quat) : Quat :=
  { w := a.w * b.w - a.x * b.x - a.y * b.y - a.z * b.z
    x := a.w * b.x + a.x * b.w + a.y * b.z - a.z * b.y
    y := a.w * b.y + a.y * b.w + a.z * b.x - a.x * b.z
    z := a.w * b.z + a.z * b.w + a.x * b.y - a.y * b.x }

/-- The identity quaternion. -/
def Quat.one : Quat := { w := 1, x := 0, y := 0, z := 0 }

/-- A transform (position, rotation, scale), modelling
forte_engine::math::transforms::Transform (external dependency; the spec uses this
shape and the update pass reads and writes exactly these three fields). -/
structure Transform where
  position : Vec3
  rotation : Quat
  scale : Vec3
deriving DecidableEq, Repr

/-- The default transform: identity at the origin. -/
def Transform.default : Transform :=
  { position := Vec3.zero, rotation := Quat.one, scale := Vec3.one }

/-- A simple AABB box to determine the dimensions of a node
(src/src/dimensions.rs, struct Dimensions).  The source field `from` is a Lean
keyword, hence the guillemets. -/
structure Dimensions where
  «from» : Vec3
  «to» : Vec3
deriving DecidableEq, Repr

/-- Default dimensions: both corners at the origin (src/src/dimensions.rs,
impl Default for Dimensions). -/
def Dimensions.default : Dimensions := { «from» := Vec3.zero, «to» := Vec3.zero }

/-- Checks if two dimensions overlap (src/src/dimensions.rs, Dimensions::overlap). -/
def Dimensions.overlap (self other : Dimensions) : Bool :=
  self.«from».x < other.«to».x && other.«from».x < self.«to».x &&
    self.«from».y < other.«to».y && other.«from».y < self.«to».y &&
    self.«from».z < other.«to».z && other.«from».z < self.«to».z

/-- Box containment: `outer` is a superset of `inner`, component-wise
(`outer.from ≤ inner.from` and `inner.«to» ≤ outer.to`). -/
def Dimensions.supersetOf (outer inner : Dimensions) : Prop :=
  Vec3.le outer.«from» inner.«from» ∧ Vec3.le inner.«to» outer.«to»

instance (a b : Dimensions) : Decidable (Dimensions.supersetOf a b) := by
  unfold Dimensions.supersetOf; infer_instance

/-- One step of the bounding-box aggregation loop in Node::update
(src/src/lib.rs lines 121-133): the six comparisons that widen the working box
`dimensions` by a child box. -/
def Dimensions.expand (dimensions child : Dimensions) : Dimensions :=
  { «from» :=
      { x := if child.«from».x < dimensions.«from».x then child.«from».x else dimensions.«from».x
        y := if child.«from».y < dimensions.«from».y then child.«from».y else dimensions.«from».y
        z := if child.«from».z < dimensions.«from».z then child.«from».z else dimensions.«from».z }
    «to» :=
      { x := if child.«to».x > dimensions.«to».x then child.«to».x else dimensions.«to».x
        y := if child.«to».y > dimensions.«to».y then child.«to».y else dimensions.«to».y
        z := if child.«to».z > dimensions.«to».z then child.«to».z else dimensions.«to».z } }

/-- The closed component enum generated by `define_world!` (src/src/lib.rs): an
`Empty` default variant plus application-defined variants; a variant is identified
by its tag and carries opaque payload data. -/
inductive Component where
  | Empty : Component
  | Variant (tag : Nat) (data : Nat) : Component
deriving DecidableEq, Repr

/-- Whether a component is the Empty variant (the dispatch sites in the source all
match on the component and skip Empty). -/
def Component.isEmpty : Component → Bool
  | .Empty => true
  | .Variant _ _ => false

/-- A scene-graph node (src/src/lib.rs, struct Node inside `define_world!`):
public `transform`, `component`, `rel_min_dimensions`; private derived
`global_transform`, `dimensions`; owned ordered `children`. -/
inductive Node where
  | mk (transform : Transform) (component : Component)
      (rel_min_dimensions : Dimensions) (global_transform : Transform)
      (dimensions : Dimensions) (children : List Node) : Node
deriving Repr

/-- Field projection: local author-set transform. -/
def Node.transform : Node → Transform
  | .mk t _ _ _ _ _ => t

/-- Field projection: component payload. -/
def Node.component : Node → Component
  | .mk _ c _ _ _ _ => c

/-- Field projection: author-set local bounding box. -/
def Node.rel_min_dimensions : Node → Dimensions
  | .mk _ _ r _ _ _ => r

/-- Field projection: derived global transform (the private field). -/
def Node.global_transform : Node → Transform
  | .mk _ _ _ g _ _ => g

/-- Field projection: derived aggregate bounding box (the private field). -/
def Node.dimensions : Node → Dimensions
  | .mk _ _ _ _ d _ => d

/-- Field projection: ordered list of owned children. -/
def Node.children : Node → List Node
  | .mk _ _ _ _ _ c => c

/-- The default node (src/src/lib.rs, impl Default for Node): default transforms
and dimensions, Empty component, no children. -/
def Node.default : Node :=
  .mk Transform.default Component.Empty Dimensions.default Transform.default
    Dimensions.default []

/-- The public accessor `Node::global_transform()` (src/src/lib.rs line 84).  Its
body is `&self.transform`: it returns the local transform field, not the stored
derived `global_transform` field.  Named with a suffix because the field
projection already uses the source field name. -/
def Node.globalTransformAccessor (n : Node) : Transform := n.transform

/-- A callback invocation performed by the update pass: `updateCall n` records that
the component update callback was invoked receiving exactly the node `n` (the
source invokes it as `$update(self)`; no application context is in scope in
`Node::update`). -/
inductive UEvent where
  | updateCall (node : Node) : UEvent

/-- A callback invocation performed by a lifecycle walk: the `added` or `removed`
callback was invoked receiving exactly the node carried by the event (the source
invokes them as `$added(self)` and `$removed(self)`). -/
inductive LEvent where
  | added (node : Node) : LEvent
  | removed (node : Node) : LEvent

/-- A callback invocation performed by the render traversal: `render app tag data`
records that the `render` callback of variant `tag` was invoked receiving the
application reference `app` and the payload `data` (the source invokes it as
`$render(self, app, data)`, `self` being the external draw context that collects
the emitted draw commands, which this trace models). -/
inductive REvent (α : Type) where
  | render (app : α) (tag : Nat) (data : Nat) : REvent α

mutual

/-- The per-frame update pass, `Node::update` (src/src/lib.rs lines 100-144):
compose the parent transform `previous` with the local transform, seed the working
box from the global position and `rel_min_dimensions`, update every child in list
order against the fresh global transform while widening the working box with each
updated child box, store the derived fields, and finally dispatch the component
update callback when the component is not Empty.  The callback effect on the node
is `cb`; the returned list records every callback invocation of the pass in
order. -/
def Node.update (cb : Node → Node) : Node → Transform → Node × List UEvent
  | .mk t comp rel _ _ children, previous =>
    let global_transform : Transform :=
      { position := Vec3.add t.position previous.position
        rotation := Quat.mul previous.rotation t.rotation
        scale := Vec3.mulElementWise t.scale previous.scale }
    let seed : Dimensions :=
      { «from» :=
          { x := global_transform.position.x + rel.«from».x
            y := global_transform.position.y + rel.«from».y
            z := global_transform.position.z + rel.«from».z }
        «to» :=
          { x := global_transform.position.x + rel.«to».x
            y := global_transform.position.y + rel.«to».y
            z := global_transform.position.z + rel.«to».z } }
    let r := Node.updateChildren cb children global_transform seed
    let stored : Node := .mk t comp rel global_transform r.2.1 r.1
    match comp with
    | .Empty => (stored, r.2.2)
    | .Variant _ _ => (cb stored, r.2.2 ++ [UEvent.updateCall stored])

/-- The child loop of `Node::update` (src/src/lib.rs lines 120-133): updates each
child in list order against the parent's fresh global transform `g`, threading the
working box `dimensions` through `Dimensions.expand`; returns the updated
children, the final box, and the concatenated callback traces. -/
def Node.updateChildren (cb : Node → Node) :
    List Node → Transform → Dimensions → List Node × Dimensions × List UEvent
  | [], _, dimensions => ([], dimensions, [])
  | child :: rest, g, dimensions =>
    let r := Node.update cb child g
    let widened := Dimensions.expand dimensions (Node.dimensions r.1)
    let rr := Node.updateChildren cb rest g widened
    (r.1 :: rr.1, rr.2.1, r.2 ++ rr.2.2)

end

mutual

/-- The recursive `added` walk, `Node::call_add_recr` (src/src/lib.rs lines
147-154): dispatch the `added` callback on this node unless its component is
Empty, then walk every child in list order.  Modelled as the trace of callback
invocations, each event carrying the node passed as `self`. -/
def Node.call_add_recr : Node → List LEvent
  | .mk t comp rel g d children =>
    (match comp with
      | Component.Empty => []
      | Component.Variant _ _ => [LEvent.added (.mk t comp rel g d children)]) ++
      Node.callAddChildren children

/-- The `for_each` over children inside `Node::call_add_recr`. -/
def Node.callAddChildren : List Node → List LEvent
  | [] => []
  | child :: rest => Node.call_add_recr child ++ Node.callAddChildren rest

end

mutual

/-- The recursive `removed` walk, `Node::call_remove_recr` (src/src/lib.rs lines
157-164): same shape as the `added` walk, dispatching the `removed` callback. -/
def Node.call_remove_recr : Node → List LEvent
  | .mk t comp rel g d children =>
    (match comp with
      | Component.Empty => []
      | Component.Variant _ _ => [LEvent.removed (.mk t comp rel g d children)]) ++
      Node.callRemoveChildren children

/-- The `for_each` over children inside `Node::call_remove_recr`. -/
def Node.callRemoveChildren : List Node → List LEvent
  | [] => []
  | child :: rest => Node.call_remove_recr child ++ Node.callRemoveChildren rest

end

/-- `Node::add_child` (src/src/lib.rs lines 90-93): push the child onto the
children list, then run the `added` walk on the just-appended child.  Returns the
new parent and the lifecycle trace. -/
def Node.add_child (parent child : Node) : Node × List LEvent :=
  match parent with
  | .mk t comp rel g d children =>
    (.mk t comp rel g d (children ++ [child]), Node.call_add_recr child)

/-- `Node::remove_child` (src/src/lib.rs lines 95-98): run the `removed` walk on
`children[idx]`, then `Vec::remove(idx)`.  The source indexes the children vector
unchecked, so an out-of-range index panics before any callback runs or the list
changes; the panic is modelled as `none`. -/
def Node.remove_child (parent : Node) (idx : Nat) : Option (Node × List LEvent) :=
  match parent with
  | .mk t comp rel g d children =>
    if h : idx < children.length then
      some (.mk t comp rel g d (children.eraseIdx idx),
        Node.call_remove_recr (children.get ⟨idx, h⟩))
    else none

mutual

/-- The render traversal, `DrawNodes::draw_node` for the render pass
(src/src/lib.rs lines 176-190): dispatch the `render` callback with the draw
context, the application reference `app` and the variant payload unless the
component is Empty, then recurse into every child in list order.  The node is
taken by shared reference in the source, so the traversal cannot mutate the tree;
it is modelled as the pure trace of render invocations. -/
def Node.draw_node {α : Type} (app : α) : Node → List (REvent α)
  | .mk _ comp _ _ _ children =>
    (match comp with
      | Component.Empty => []
      | Component.Variant tag data => [REvent.render app tag data]) ++
      Node.drawChildren app children

/-- The `for_each` over children inside `draw_node`. -/
def Node.drawChildren {α : Type} (app : α) : List Node → List (REvent α)
  | [] => []
  | child :: rest => Node.draw_node app child ++ Node.drawChildren app rest

end

mutual

/-- Pre-order enumeration of the nodes of a subtree, written from the wording of
the spec: each node before its own children, sibling subtrees in list order.  Used
as the reference order against which the traversals are compared. -/
def Node.preorder : Node → List Node
  | .mk t comp rel g d children =>
    .mk t comp rel g d children :: Node.preorderList children

/-- Pre-order enumeration of a forest, in list order. -/
def Node.preorderList : List Node → List Node
  | [] => []
  | child :: rest => Node.preorder child ++ Node.preorderList rest

end

/-- The hypothesis under which the spec states its update-pass properties: the
component update callback may mutate the component payload (and external
application state), but leaves the node's local `transform`, its
`rel_min_dimensions`, the stored derived fields, and the children list
unchanged. -/
def PreservesNode (cb : Node → Node) : Prop :=
  ∀ m : Node,
    (cb m).transform = m.transform ∧
    (cb m).rel_min_dimensions = m.rel_min_dimensions ∧
    (cb m).global_transform = m.global_transform ∧
    (cb m).dimensions = m.dimensions ∧
    (cb m).children = m.children

mutual

/-- Recursively replace every component in a subtree by Empty: two trees equal
after erasure agree on every structural and derived field of every node, and may
differ only in component payloads. -/
def Node.eraseComponents : Node → Node
  | .mk t _ rel g d children =>
    .mk t Component.Empty rel g d (Node.eraseComponentsList children)

/-- Component erasure on a forest. -/
def Node.eraseComponentsList : List Node → List Node
  | [] => []
  | child :: rest => Node.eraseComponents child :: Node.eraseComponentsList rest

end

/-- A concrete non-identity parent transform used to instantiate theorems. -/
def exPrev : Transform :=
  { position := { x := 1, y := 2, z := 3 }
    rotation := Quat.one
    scale := { x := 2, y := 1, z := 1 } }

/-- A concrete author-set local box used to instantiate theorems. -/
def exRel : Dimensions :=
  { «from» := { x := -1, y := -1, z := -1 }, «to» := { x := 1, y := 1, z := 1 } }

/-- A concrete leaf with a non-Empty component. -/
def exLeafA : Node :=
  .mk { position := { x := 1, y := 0, z := 0 }, rotation := Quat.one, scale := Vec3.one }
    (.Variant 1 10) exRel Transform.default Dimensions.default []

/-- A concrete leaf with the Empty component. -/
def exLeafB : Node :=
  .mk { position := { x := 0, y := 5, z := 0 }, rotation := Quat.one, scale := Vec3.one }
    .Empty { «from» := Vec3.zero, «to» := { x := 2, y := 0, z := 0 } }
    Transform.default Dimensions.default []

/-- A concrete two-level tree: a root with a non-Empty component and two leaves. -/
def exRoot : Node :=
  .mk Transform.default (.Variant 0 7) exRel Transform.default Dimensions.default
    [exLeafA, exLeafB]

/-- The box A of spec section 8: unit box at the origin. -/
def exBoxA : Dimensions := { «from» := Vec3.zero, «to» := Vec3.one }

/-- The box C of spec section 8: unit box touching A at the corner (1,1,1). -/
def exBoxC : Dimensions := { «from» := Vec3.one, «to» := { x := 2, y := 2, z := 2 } }

/-- The default node after one update pass against the non-identity parent
transform `exPrev`, with no-op callbacks. -/
def exUpdatedDefault : Node := (Node.update id Node.default exPrev).1

/-- The global transform computed by one update step (the `global_transform`
local of `Node::update`). -/
def Node.updatedGlobal (n : Node) (previous : Transform) : Transform :=
  { position := Vec3.add n.transform.position previous.position
    rotation := Quat.mul previous.rotation n.transform.rotation
    scale := Vec3.mulElementWise n.transform.scale previous.scale }

/-- The seeded working box of one update step (the `dimensions` local of
`Node::update` before the child loop): the local box offset by the node's fresh
global position. -/
def Node.seedBox (n : Node) (previous : Transform) : Dimensions :=
  { «from» := Vec3.add (n.updatedGlobal previous).position n.rel_min_dimensions.«from»
    «to» := Vec3.add (n.updatedGlobal previous).position n.rel_min_dimensions.«to» }

/-- The derived per-frame state of a node: its stored global transform and
stored aggregate box. -/
def Node.derivedState (m : Node) : Transform × Dimensions :=
  (m.global_transform, m.dimensions)

/-- The `added` callback invocation a single node gives rise to: none for the
Empty component, otherwise the event carrying the node. -/
def Node.addedEventOf (m : Node) : Option LEvent :=
  match m.component with
  | Component.Empty => none
  | Component.Variant _ _ => some (LEvent.added m)

/-- The `removed` callback invocation a single node gives rise to: none for the
Empty component, otherwise the event carrying the node. -/
def Node.removedEventOf (m : Node) : Option LEvent :=
  match m.component with
  | Component.Empty => none
  | Component.Variant _ _ => some (LEvent.removed m)

/-- The `render` callback invocation a single node gives rise to: none for the
Empty component, otherwise the event carrying the application reference and the
variant payload. -/
def Node.renderEventOf {α : Type} (app : α) (m : Node) : Option (REvent α) :=
  match m.component with
  | Component.Empty => none
  | Component.Variant tag data => some (REvent.render app tag data)

/-- Projection computation for the node constructor. -/
@[simp] theorem Node.transform_mk (t c r g d ch) :
    (Node.mk t c r g d ch).transform = t := rfl

/-- Projection computation for the node constructor. -/
@[simp] theorem Node.component_mk (t c r g d ch) :
    (Node.mk t c r g d ch).component = c := rfl

/-- Projection computation for the node constructor. -/
@[simp] theorem Node.rel_min_dimensions_mk (t c r g d ch) :
    (Node.mk t c r g d ch).rel_min_dimensions = r := rfl

/-- Projection computation for the node constructor. -/
@[simp] theorem Node.global_transform_mk (t c r g d ch) :
    (Node.mk t c r g d ch).global_transform = g := rfl

/-- Projection computation for the node constructor. -/
@[simp] theorem Node.dimensions_mk (t c r g d ch) :
    (Node.mk t c r g d ch).dimensions = d := rfl

/-- Projection computation for the node constructor. -/
@[simp] theorem Node.children_mk (t c r g d ch) :
    (Node.mk t c r g d ch).children = ch := rfl

/-- Eta rule for nodes. -/
theorem Node.eta (n : Node) :
    Node.mk n.transform n.component n.rel_min_dimensions n.global_transform
      n.dimensions n.children = n := by
  cases n; rfl

/-- The component-wise order on vectors is reflexive. -/
theorem Vec3.le_refl (a : Vec3) : Vec3.le a a := ⟨le_rfl, le_rfl, le_rfl⟩

/-- The component-wise order on vectors is transitive. -/
theorem Vec3.le_trans {a b c : Vec3} (hab : Vec3.le a b) (hbc : Vec3.le b c) :
    Vec3.le a c :=
  ⟨hab.1.trans hbc.1, hab.2.1.trans hbc.2.1, hab.2.2.trans hbc.2.2⟩

/-- Box containment is reflexive. -/
theorem Dimensions.supersetOf_refl (a : Dimensions) : a.supersetOf a :=
  ⟨Vec3.le_refl _, Vec3.le_refl _⟩

/-- Box containment is transitive. -/
theorem Dimensions.supersetOf_trans {a b c : Dimensions}
    (hab : a.supersetOf b) (hbc : b.supersetOf c) : a.supersetOf c :=
  ⟨Vec3.le_trans hab.1 hbc.1, Vec3.le_trans hbc.2 hab.2⟩

/-- Widening a working box keeps it a superset of the working box. -/
theorem Dimensions.expand_supersetOf_left (d c : Dimensions) :
    (Dimensions.expand d c).supersetOf d := by
  unfold Dimensions.expand Dimensions.supersetOf Vec3.le
  constructor <;> refine ⟨?_, ?_, ?_⟩ <;> dsimp only <;> split <;> linarith

/-- Widening a working box by a child box yields a superset of the child box. -/
theorem Dimensions.expand_supersetOf_right (d c : Dimensions) :
    (Dimensions.expand d c).supersetOf c := by
  unfold Dimensions.expand Dimensions.supersetOf Vec3.le
  constructor <;> refine ⟨?_, ?_, ?_⟩ <;> dsimp only <;> split <;> linarith

/-- Folding the widening step over a list of boxes yields a superset of the
initial working box. -/
theorem Dimensions.foldl_expand_supersetOf_init (ds : List Dimensions) :
    ∀ d0 : Dimensions, (List.foldl Dimensions.expand d0 ds).supersetOf d0 := by
  induction ds with
  | nil => exact fun d0 => Dimensions.supersetOf_refl d0
  | cons c cs ih =>
    intro d0
    exact Dimensions.supersetOf_trans (ih (Dimensions.expand d0 c))
      (Dimensions.expand_supersetOf_left d0 c)

/-- Folding the widening step over a list of boxes yields a superset of every
box in the list. -/
theorem Dimensions.foldl_expand_supersetOf_mem {b : Dimensions}
    (ds : List Dimensions) :
    ∀ d0 : Dimensions, b ∈ ds → (List.foldl Dimensions.expand d0 ds).supersetOf b := by
  induction ds with
  | nil => intro d0 hb; cases hb
  | cons c cs ih =>
    intro d0 hb
    rcases List.mem_cons.mp hb with rfl | hb
    · exact Dimensions.supersetOf_trans
        (Dimensions.foldl_expand_supersetOf_init cs (Dimensions.expand d0 b))
        (Dimensions.expand_supersetOf_right d0 b)
    · exact ih (Dimensions.expand d0 c) hb

/-- Strong induction principle for the nested node tree: to prove a property of
every node it suffices to prove it for a node given that it holds for every
child. -/
theorem Node.strongInd (P : Node → Prop)
    (h : ∀ t comp rel g d children,
      (∀ x, x ∈ children → P x) → P (.mk t comp rel g d children)) :
    ∀ n, P n
  | .mk t comp rel g d children =>
    h t comp rel g d children fun x _hx => Node.strongInd P h x

/-- Membership in the pre-order enumeration of a forest. -/
theorem Node.mem_preorderList {x : Node} :
    ∀ {l : List Node}, x ∈ Node.preorderList l ↔ ∃ c ∈ l, x ∈ Node.preorder c := by
  intro l
  induction l with
  | nil => simp [Node.preorderList]
  | cons c cs ih => simp [Node.preorderList, List.mem_append, ih]

/-- A subtree root heads its own pre-order enumeration. -/
theorem Node.self_mem_preorder (n : Node) : n ∈ Node.preorder n := by
  cases n with
  | mk t comp rel g d children => simp [Node.preorder]

/-- The children returned by the child loop are each child updated against the
parent's fresh global transform, in order, independently of the working box. -/
theorem Node.updateChildren_fst (cb : Node → Node) (g : Transform) :
    ∀ (l : List Node) (d0 : Dimensions),
      (Node.updateChildren cb l g d0).1 = l.map fun c => (Node.update cb c g).1 := by
  intro l
  induction l with
  | nil => intro d0; simp [Node.updateChildren]
  | cons c cs ih => intro d0; simp [Node.updateChildren, ih]

/-- The working box returned by the child loop is the fold of the widening step
over the updated children's boxes. -/
theorem Node.updateChildren_dims (cb : Node → Node) (g : Transform) :
    ∀ (l : List Node) (d0 : Dimensions),
      (Node.updateChildren cb l g d0).2.1 =
        List.foldl Dimensions.expand d0
          (l.map fun c => ((Node.update cb c g).1).dimensions) := by
  intro l
  induction l with
  | nil => intro d0; simp [Node.updateChildren]
  | cons c cs ih => intro d0; simp [Node.updateChildren, ih]

/-- One-step unfolding of the update pass through the component dispatch: the
result is the stored node, with the callback applied when the component is not
Empty. -/
theorem Node.update_fst (cb : Node → Node) (t comp rel g0 d0 children previous) :
    (Node.update cb (.mk t comp rel g0 d0 children) previous).1 =
      (match comp with
        | Component.Empty => id
        | Component.Variant _ _ => cb)
        (Node.mk t comp rel
          (Node.updatedGlobal (.mk t comp rel g0 d0 children) previous)
          (Node.updateChildren cb children
            (Node.updatedGlobal (.mk t comp rel g0 d0 children) previous)
            (Node.seedBox (.mk t comp rel g0 d0 children) previous)).2.1
          (Node.updateChildren cb children
            (Node.updatedGlobal (.mk t comp rel g0 d0 children) previous)
            (Node.seedBox (.mk t comp rel g0 d0 children) previous)).1) := by
  cases comp <;> simp [Node.update, Node.updatedGlobal, Node.seedBox, Vec3.add]

/-- The update pass leaves the local transform unchanged when the callback
does. -/
theorem Node.update_transform (cb : Node → Node)
    (ht : ∀ m, (cb m).transform = m.transform) (n : Node) (previous : Transform) :
    ((Node.update cb n previous).1).transform = n.transform := by
  cases n with
  | mk t comp rel g0 d0 children =>
    rw [Node.update_fst]
    cases comp <;> simp [ht]

/-- The update pass leaves the local box unchanged when the callback does. -/
theorem Node.update_rel_min_dimensions (cb : Node → Node)
    (hr : ∀ m, (cb m).rel_min_dimensions = m.rel_min_dimensions)
    (n : Node) (previous : Transform) :
    ((Node.update cb n previous).1).rel_min_dimensions = n.rel_min_dimensions := by
  cases n with
  | mk t comp rel g0 d0 children =>
    rw [Node.update_fst]
    cases comp <;> simp [hr]

/-- The update pass stores the composed global transform when the callback does
not overwrite the stored field. -/
theorem Node.update_global (cb : Node → Node)
    (hg : ∀ m, (cb m).global_transform = m.global_transform)
    (n : Node) (previous : Transform) :
    ((Node.update cb n previous).1).global_transform = n.updatedGlobal previous := by
  cases n with
  | mk t comp rel g0 d0 children =>
    rw [Node.update_fst]
    cases comp <;> simp [hg, Node.updatedGlobal]

/-- The children stored by the update pass are the updated children, when the
callback does not replace the children list. -/
theorem Node.update_children (cb : Node → Node)
    (hc : ∀ m, (cb m).children = m.children) (n : Node) (previous : Transform) :
    ((Node.update cb n previous).1).children =
      n.children.map fun c => (Node.update cb c (n.updatedGlobal previous)).1 := by
  cases n with
  | mk t comp rel g0 d0 children =>
    rw [Node.update_fst]
    cases comp <;> simp [hc, Node.updateChildren_fst, Node.updatedGlobal]

/-- The box stored by the update pass is the seeded box widened by every updated
child box in order, when the callback does not overwrite the stored field. -/
theorem Node.update_dimensions (cb : Node → Node)
    (hd : ∀ m, (cb m).dimensions = m.dimensions) (n : Node) (previous : Transform) :
    ((Node.update cb n previous).1).dimensions =
      List.foldl Dimensions.expand (n.seedBox previous)
        (n.children.map fun c =>
          ((Node.update cb c (n.updatedGlobal previous)).1).dimensions) := by
  cases n with
  | mk t comp rel g0 d0 children =>
    rw [Node.update_fst]
    cases comp <;> simp [hd, Node.updateChildren_dims, Node.updatedGlobal, Node.seedBox]

/-- Unfolding of the pre-order enumeration through the projections. -/
theorem Node.preorder_eq (n : Node) :
    Node.preorder n = n :: Node.preorderList n.children := by
  cases n with
  | mk t comp rel g d children => simp [Node.preorder]

/-- After an update pass whose callback preserves the structural and derived
fields, the stored box of the result is a superset of the stored box of every
node of the resulting subtree. -/
theorem Node.update_superset_descendants (cb : Node → Node)
    (hcb : PreservesNode cb) :
    ∀ n prev, ∀ x ∈ Node.preorder ((Node.update cb n prev).1),
      ((Node.update cb n prev).1).dimensions.supersetOf x.dimensions := by
  intro n
  induction n using Node.strongInd with
  | h t comp rel g0 d0 children ih =>
    intro prev x hx
    have hchil := Node.update_children cb (fun m => (hcb m).2.2.2.2)
      (.mk t comp rel g0 d0 children) prev
    have hdims := Node.update_dimensions cb (fun m => (hcb m).2.2.2.1)
      (.mk t comp rel g0 d0 children) prev
    rw [Node.preorder_eq] at hx
    rcases List.mem_cons.mp hx with rfl | hx
    · exact Dimensions.supersetOf_refl _
    · rw [hchil, Node.children_mk] at hx
      rcases Node.mem_preorderList.mp hx with ⟨c', hc', hxc⟩
      rcases List.mem_map.mp hc' with ⟨c, hc, rfl⟩
      have h1 := ih c hc
        ((Node.mk t comp rel g0 d0 children).updatedGlobal prev) x hxc
      have h2 : ((Node.update cb (.mk t comp rel g0 d0 children) prev).1).dimensions.supersetOf
          ((Node.update cb c ((Node.mk t comp rel g0 d0 children).updatedGlobal prev)).1).dimensions := by
        rw [hdims, Node.children_mk]
        exact Dimensions.foldl_expand_supersetOf_mem _ _
          (List.mem_map_of_mem _ hc)
      exact Dimensions.supersetOf_trans h2 h1

/-- Component erasure through the projections. -/
theorem Node.erase_eq (m : Node) :
    Node.eraseComponents m =
      .mk m.transform Component.Empty m.rel_min_dimensions m.global_transform
        m.dimensions (Node.eraseComponentsList m.children) := by
  cases m with
  | mk t c r g d ch => simp [Node.eraseComponents]

/-- Component erasure keeps the stored box. -/
theorem Node.erase_dimensions (m : Node) :
    (Node.eraseComponents m).dimensions = m.dimensions := by
  rw [Node.erase_eq]; rfl

/-- Component erasure of a forest is the elementwise erasure. -/
theorem Node.eraseComponentsList_eq_map (l : List Node) :
    Node.eraseComponentsList l = l.map Node.eraseComponents := by
  induction l with
  | nil => simp [Node.eraseComponentsList]
  | cons c cs ih => simp [Node.eraseComponentsList, ih]

/-- Running the update pass on the output of an update pass with the same parent
transform changes nothing up to component payloads, when the callbacks leave the
structural and derived node fields unchanged. -/
theorem Node.update_twice_erase (cb : Node → Node) (hcb : PreservesNode cb) :
    ∀ n prev,
      Node.eraseComponents ((Node.update cb ((Node.update cb n prev).1) prev).1) =
        Node.eraseComponents ((Node.update cb n prev).1) := by
  have ht : ∀ m, (cb m).transform = m.transform := fun m => (hcb m).1
  have hr := fun m => (hcb m).2.1
  have hg := fun m => (hcb m).2.2.1
  have hd := fun m => (hcb m).2.2.2.1
  have hc := fun m => (hcb m).2.2.2.2
  intro n
  induction n using Node.strongInd with
  | h t comp rel g0 d0 children ih =>
    intro prev
    have hT1 : ((Node.update cb (.mk t comp rel g0 d0 children) prev).1).transform = t :=
      Node.update_transform cb ht _ prev
    have hR1 : ((Node.update cb (.mk t comp rel g0 d0 children) prev).1).rel_min_dimensions = rel :=
      Node.update_rel_min_dimensions cb hr _ prev
    have hG1 := Node.update_global cb hg (.mk t comp rel g0 d0 children) prev
    have hC1 := Node.update_children cb hc (.mk t comp rel g0 d0 children) prev
    have hD1 := Node.update_dimensions cb hd (.mk t comp rel g0 d0 children) prev
    have hT2 := Node.update_transform cb ht
      ((Node.update cb (.mk t comp rel g0 d0 children) prev).1) prev
    have hR2 := Node.update_rel_min_dimensions cb hr
      ((Node.update cb (.mk t comp rel g0 d0 children) prev).1) prev
    have hG2 := Node.update_global cb hg
      ((Node.update cb (.mk t comp rel g0 d0 children) prev).1) prev
    have hC2 := Node.update_children cb hc
      ((Node.update cb (.mk t comp rel g0 d0 children) prev).1) prev
    have hD2 := Node.update_dimensions cb hd
      ((Node.update cb (.mk t comp rel g0 d0 children) prev).1) prev
    have hGG : Node.updatedGlobal ((Node.update cb (.mk t comp rel g0 d0 children) prev).1) prev =
        Node.updatedGlobal (.mk t comp rel g0 d0 children) prev := by
      simp [Node.updatedGlobal, hT1]
    have hSS : Node.seedBox ((Node.update cb (.mk t comp rel g0 d0 children) prev).1) prev =
        Node.seedBox (.mk t comp rel g0 d0 children) prev := by
      simp [Node.seedBox, Node.updatedGlobal, hT1, hR1]
    have hIHdims : ∀ c ∈ children,
        ((Node.update cb ((Node.update cb c
            (Node.updatedGlobal (.mk t comp rel g0 d0 children) prev)).1)
            (Node.updatedGlobal (.mk t comp rel g0 d0 children) prev)).1).dimensions =
          ((Node.update cb c
            (Node.updatedGlobal (.mk t comp rel g0 d0 children) prev)).1).dimensions := by
      intro c hcm
      rw [← Node.erase_dimensions, ih c hcm _, Node.erase_dimensions]
    have hlist : (((Node.update cb (.mk t comp rel g0 d0 children) prev).1).children.map
          fun c => ((Node.update cb c (Node.updatedGlobal
            ((Node.update cb (.mk t comp rel g0 d0 children) prev).1) prev)).1).dimensions) =
        children.map fun c => ((Node.update cb c
          (Node.updatedGlobal (.mk t comp rel g0 d0 children) prev)).1).dimensions := by
      rw [hGG, hC1, Node.children_mk, List.map_map]
      exact List.map_congr_left fun c hcm => hIHdims c hcm
    have hclist : Node.eraseComponentsList
          (((Node.update cb ((Node.update cb (.mk t comp rel g0 d0 children) prev).1) prev).1).children) =
        Node.eraseComponentsList (((Node.update cb (.mk t comp rel g0 d0 children) prev).1).children) := by
      rw [hC2, hGG, hC1, Node.children_mk, List.map_map,
        Node.eraseComponentsList_eq_map, Node.eraseComponentsList_eq_map,
        List.map_map, List.map_map]
      exact List.map_congr_left fun c hcm => by
        simp only [Function.comp]
        exact ih c hcm _
    rw [Node.erase_eq ((Node.update cb ((Node.update cb (.mk t comp rel g0 d0 children) prev).1) prev).1),
      Node.erase_eq ((Node.update cb (.mk t comp rel g0 d0 children) prev).1)]
    simp only [Node.mk.injEq]
    refine ⟨?_, trivial, ?_, ?_, ?_, ?_⟩
    · rw [hT2, hT1]
    · rw [hR2, hR1]
    · rw [hG2, hGG, hG1]
    · rw [hD2, hD1, hSS, hlist]; rfl
    · exact hclist

/-- Unfolding of the pre-order enumeration of a forest on a cons cell. -/
theorem Node.preorderList_cons (c : Node) (cs : List Node) :
    Node.preorderList (c :: cs) = Node.preorder c ++ Node.preorderList cs := rfl

/-- Two subtrees equal after component erasure have the same derived state
(stored global transform and box) at every node position, in pre-order. -/
theorem Node.preorder_derivedState_of_erase :
    ∀ a b : Node, Node.eraseComponents a = Node.eraseComponents b →
      (Node.preorder a).map Node.derivedState =
        (Node.preorder b).map Node.derivedState := by
  intro a
  induction a using Node.strongInd with
  | h t comp rel g d children ih =>
    intro b hab
    cases b with
    | mk t2 comp2 rel2 g2 d2 children2 =>
      simp only [Node.eraseComponents, Node.mk.injEq] at hab
      obtain ⟨h1, h2, h3, h4, hd, h5⟩ := hab
      rw [Node.preorder_eq, Node.preorder_eq]
      simp only [List.map_cons, Node.children_mk]
      congr 1
      · simp [Node.derivedState, h4, hd]
      · clear h1 h2 h3 h4 hd
        induction children generalizing children2 with
        | nil =>
          cases children2 with
          | nil => rfl
          | cons c2 cs2 => simp [Node.eraseComponentsList] at h5
        | cons c cs ihl =>
          cases children2 with
          | nil => simp [Node.eraseComponentsList] at h5
          | cons c2 cs2 =>
            simp only [Node.eraseComponentsList, List.cons.injEq] at h5
            rw [Node.preorderList_cons, Node.preorderList_cons,
              List.map_append, List.map_append]
            rw [ih c (List.mem_cons_self c cs) c2 h5.1,
              ihl (fun x hx => ih x (List.mem_cons_of_mem c hx)) cs2 h5.2]

/-- C8: with component update callbacks that leave the node's local transform,
local box, derived fields and children unchanged (for example, all components
Empty), running the update pass twice in succession with the same parent
transform gives every node the identical stored global transform and box that a
single run gives, position by position in pre-order. -/
theorem update_pass_idempotent_derived (cb : Node → Node)
    (hcb : PreservesNode cb) (n : Node) (prev : Transform) :
    (Node.preorder ((Node.update cb ((Node.update cb n prev).1) prev).1)).map
        Node.derivedState =
      (Node.preorder ((Node.update cb n prev).1)).map Node.derivedState :=
  Node.preorder_derivedState_of_erase _ _ (Node.update_twice_erase cb hcb n prev)

/-- Witness for C8 at a concrete two-level tree against a concrete parent
transform, with no-op callbacks. -/
theorem update_pass_idempotent_derived_witness :
    (Node.preorder ((Node.update id ((Node.update id exRoot exPrev).1) exPrev).1)).map
        Node.derivedState =
      (Node.preorder ((Node.update id exRoot exPrev).1)).map Node.derivedState :=
  update_pass_idempotent_derived id (fun _ => ⟨rfl, rfl, rfl, rfl, rfl⟩) exRoot exPrev

/-- The child loop of the `added` walk produces the pre-order forest events,
given that each tree of the forest does. -/
theorem Node.callAddChildren_eq (l : List Node)
    (hl : ∀ x ∈ l, Node.call_add_recr x = (Node.preorder x).filterMap Node.addedEventOf) :
    Node.callAddChildren l = (Node.preorderList l).filterMap Node.addedEventOf := by
  induction l with
  | nil => rfl
  | cons c cs ih =>
    rw [Node.callAddChildren, Node.preorderList_cons, List.filterMap_append,
      hl c (List.mem_cons_self c cs),
      ih fun x hx => hl x (List.mem_cons_of_mem c hx)]

/-- The `added` walk invokes the callback exactly once per node whose component
is not Empty, in pre-order, each event carrying the visited node. -/
theorem Node.call_add_recr_preorder :
    ∀ n : Node, Node.call_add_recr n = (Node.preorder n).filterMap Node.addedEventOf := by
  intro n
  induction n using Node.strongInd with
  | h t comp rel g d children ih =>
    simp only [Node.call_add_recr]
    rw [Node.preorder_eq, Node.children_mk, List.filterMap_cons,
      Node.callAddChildren_eq children ih]
    cases comp <;> simp [Node.addedEventOf]

/-- The child loop of the `removed` walk produces the pre-order forest events,
given that each tree of the forest does. -/
theorem Node.callRemoveChildren_eq (l : List Node)
    (hl : ∀ x ∈ l, Node.call_remove_recr x = (Node.preorder x).filterMap Node.removedEventOf) :
    Node.callRemoveChildren l = (Node.preorderList l).filterMap Node.removedEventOf := by
  induction l with
  | nil => rfl
  | cons c cs ih =>
    rw [Node.callRemoveChildren, Node.preorderList_cons, List.filterMap_append,
      hl c (List.mem_cons_self c cs),
      ih fun x hx => hl x (List.mem_cons_of_mem c hx)]

/-- The `removed` walk invokes the callback exactly once per node whose
component is not Empty, in pre-order, each event carrying the visited node. -/
theorem Node.call_remove_recr_preorder :
    ∀ n : Node, Node.call_remove_recr n = (Node.preorder n).filterMap Node.removedEventOf := by
  intro n
  induction n using Node.strongInd with
  | h t comp rel g d children ih =>
    simp only [Node.call_remove_recr]
    rw [Node.preorder_eq, Node.children_mk, List.filterMap_cons,
      Node.callRemoveChildren_eq children ih]
    cases comp <;> simp [Node.removedEventOf]

/-- The child loop of the render traversal produces the pre-order forest events,
given that each tree of the forest does. -/
theorem Node.drawChildren_eq {α : Type} (app : α) (l : List Node)
    (hl : ∀ x ∈ l, Node.draw_node app x = (Node.preorder x).filterMap (Node.renderEventOf app)) :
    Node.drawChildren app l = (Node.preorderList l).filterMap (Node.renderEventOf app) := by
  induction l with
  | nil => rfl
  | cons c cs ih =>
    rw [Node.drawChildren, Node.preorderList_cons, List.filterMap_append,
      hl c (List.mem_cons_self c cs),
      ih fun x hx => hl x (List.mem_cons_of_mem c hx)]

/-- C1: for every parent global transform `P` and every node with local transform
`C`, the update pass computes the node's global transform with position
`C.position + P.position`, rotation `P.rotation * C.rotation`, and scale the
element-wise product of `C.scale` and `P.scale` (parent position is added, not
rotated or scaled by the parent frame).  Stated for any component update callback
that does not overwrite the stored global transform. -/
theorem update_computes_nonstandard_composition (cb : Node → Node)
    (hcb : ∀ m, (cb m).global_transform = m.global_transform)
    (n : Node) (P : Transform) :
    ((Node.update cb n P).1).global_transform.position =
        Vec3.add n.transform.position P.position ∧
      ((Node.update cb n P).1).global_transform.rotation =
        Quat.mul P.rotation n.transform.rotation ∧
      ((Node.update cb n P).1).global_transform.scale =
        Vec3.mulElementWise n.transform.scale P.scale := by
  rw [Node.update_global cb hcb n P]
  exact ⟨rfl, rfl, rfl⟩

/-- Witness for C1 at a concrete tree and a concrete non-identity parent
transform, with no-op callbacks. -/
theorem update_computes_nonstandard_composition_witness :
    ((Node.update id exRoot exPrev).1).global_transform.position =
        Vec3.add exRoot.transform.position exPrev.position ∧
      ((Node.update id exRoot exPrev).1).global_transform.rotation =
        Quat.mul exPrev.rotation exRoot.transform.rotation ∧
      ((Node.update id exRoot exPrev).1).global_transform.scale =
        Vec3.mulElementWise exRoot.transform.scale exPrev.scale :=
  update_computes_nonstandard_composition id (fun _ => rfl) exRoot exPrev

/-- C2: after an update pass whose callbacks leave the structural and derived
node fields unchanged, every node's stored `dimensions` box is a superset of its
own seeded local box (`rel_min_dimensions` offset by its global position) and of
the stored aggregate box of every node of its subtree, component-wise. -/
theorem update_dimensions_superset (cb : Node → Node) (hcb : PreservesNode cb)
    (n : Node) (prev : Transform) :
    ((Node.update cb n prev).1).dimensions.supersetOf
        { «from» := Vec3.add ((Node.update cb n prev).1).global_transform.position
            ((Node.update cb n prev).1).rel_min_dimensions.«from»
          «to» := Vec3.add ((Node.update cb n prev).1).global_transform.position
            ((Node.update cb n prev).1).rel_min_dimensions.«to» } ∧
      ∀ x ∈ Node.preorder ((Node.update cb n prev).1),
        ((Node.update cb n prev).1).dimensions.supersetOf x.dimensions := by
  constructor
  · rw [Node.update_global cb (fun m => (hcb m).2.2.1) n prev,
      Node.update_rel_min_dimensions cb (fun m => (hcb m).2.1) n prev,
      Node.update_dimensions cb (fun m => (hcb m).2.2.2.1) n prev]
    exact Dimensions.foldl_expand_supersetOf_init _ (n.seedBox prev)
  · exact Node.update_superset_descendants cb hcb n prev

/-- Witness for C2 at a concrete two-level tree against a concrete parent
transform, with no-op callbacks. -/
theorem update_dimensions_superset_witness :
    ((Node.update id exRoot exPrev).1).dimensions.supersetOf
        { «from» := Vec3.add ((Node.update id exRoot exPrev).1).global_transform.position
            ((Node.update id exRoot exPrev).1).rel_min_dimensions.«from»
          «to» := Vec3.add ((Node.update id exRoot exPrev).1).global_transform.position
            ((Node.update id exRoot exPrev).1).rel_min_dimensions.«to» } ∧
      ∀ x ∈ Node.preorder ((Node.update id exRoot exPrev).1),
        ((Node.update id exRoot exPrev).1).dimensions.supersetOf x.dimensions :=
  update_dimensions_superset id (fun _ => ⟨rfl, rfl, rfl, rfl, rfl⟩) exRoot exPrev

/-- C6: `overlap a b` is true exactly when the boxes intersect on all three axes
under strict inequality; in particular the spec example boxes that touch at the
corner (1,1,1) with a zero-width intersection do not overlap. -/
theorem overlap_iff_strict_intersection :
    (∀ a b : Dimensions,
      Dimensions.overlap a b = true ↔
        (a.«from».x < b.«to».x ∧ b.«from».x < a.«to».x ∧
          a.«from».y < b.«to».y ∧ b.«from».y < a.«to».y ∧
          a.«from».z < b.«to».z ∧ b.«from».z < a.«to».z)) ∧
      Dimensions.overlap exBoxA exBoxC = false := by
  constructor
  · intro a b
    simp [Dimensions.overlap, Bool.and_eq_true, decide_eq_true_eq, and_assoc]
  · simp [Dimensions.overlap, exBoxA, exBoxC, Vec3.zero, Vec3.one]

/-- C7: the overlap predicate is symmetric. -/
theorem overlap_symm (a b : Dimensions) :
    Dimensions.overlap a b = Dimensions.overlap b a := by
  unfold Dimensions.overlap
  rw [Bool.eq_iff_iff]
  simp only [Bool.and_eq_true, decide_eq_true_eq]
  tauto

/-- C9: calling `remove_child` with an index at or past the end of the children
list hits the unchecked `children[idx]` indexing and panics, modelled as `none`:
the operation is fatal, no `removed` callback is invoked and the children list is
not modified. -/
theorem remove_child_out_of_range (n : Node) (idx : Nat)
    (h : n.children.length ≤ idx) : Node.remove_child n idx = none := by
  cases n with
  | mk t c r g d ch =>
    simp only [Node.children_mk] at h
    simp only [Node.remove_child]
    rw [dif_neg (by omega)]

/-- Witness for C9: removing child 2 from a concrete node with two children. -/
theorem remove_child_out_of_range_witness : Node.remove_child exRoot 2 = none :=
  remove_child_out_of_range exRoot 2 (by decide)

/-- C10: the public accessor `global_transform()` returns the node's local
`transform` field, not the stored derived field; after an update pass against a
non-identity parent transform the two differ on a concrete node. -/
theorem global_transform_accessor_returns_local :
    (∀ n : Node, Node.globalTransformAccessor n = n.transform) ∧
      Node.globalTransformAccessor exUpdatedDefault ≠
        exUpdatedDefault.global_transform := by
  constructor
  · intro n; rfl
  · intro h
    have h1 : (Node.globalTransformAccessor exUpdatedDefault).position.x = 0 := by
      have ht := Node.update_transform id (fun _ => rfl) Node.default exPrev
      simp only [Node.globalTransformAccessor, exUpdatedDefault, ht]
      norm_num [Node.default, Transform.default, Vec3.zero]
    have h2 : exUpdatedDefault.global_transform.position.x = 1 := by
      have hg := Node.update_global id (fun _ => rfl) Node.default exPrev
      simp only [exUpdatedDefault, hg]
      norm_num [Node.updatedGlobal, Node.default, Transform.default, Vec3.zero,
        Vec3.add, exPrev]
    rw [h] at h1
    rw [h1] at h2
    norm_num at h2

/-- C3 counterexample: attaching a subtree of N = 1 node whose component is
Empty invokes the `added` callback 0 times, not N = 1 times: the source walks
skip every Empty-component node at the dispatch point. -/
theorem lifecycle_exactly_n_calls_counterexample :
    (Node.add_child Node.default Node.default).2.length = 0 ∧
      (Node.preorder Node.default).length = 1 := by
  constructor
  · rfl
  · rfl

/-- C3 amended: `add_child` appends the child and then invokes the `added`
callback once for each node of the attached subtree whose component is not
Empty, visiting nodes in pre-order (each node before its own children, sibling
subtrees in list order); `remove_child` at a valid index invokes the `removed`
callback once for each non-Empty-component node of the removed subtree in the
same pre-order, before the subtree is detached; every node is visited exactly
once by each walk. -/
theorem lifecycle_callbacks_preorder (parent child : Node) (idx : Nat)
    (h : idx < parent.children.length) :
    (Node.add_child parent child).1.children = parent.children ++ [child] ∧
      (Node.add_child parent child).2 =
        (Node.preorder child).filterMap Node.addedEventOf ∧
      Node.remove_child parent idx =
        some (Node.mk parent.transform parent.component parent.rel_min_dimensions
            parent.global_transform parent.dimensions (parent.children.eraseIdx idx),
          (Node.preorder (parent.children.get ⟨idx, h⟩)).filterMap
            Node.removedEventOf) := by
  refine ⟨?_, ?_, ?_⟩
  · cases parent with
    | mk t c r g d ch => simp [Node.add_child]
  · cases parent with
    | mk t c r g d ch =>
      simp only [Node.add_child]
      exact Node.call_add_recr_preorder child
  · cases parent with
    | mk t c r g d ch =>
      simp only [Node.children_mk] at h
      simp only [Node.remove_child]
      rw [dif_pos h, Node.call_remove_recr_preorder]
      simp

/-- Witness for the amended C3 at a concrete parent with two children, attaching
a concrete subtree and removing the child at index 0. -/
theorem lifecycle_callbacks_preorder_witness :
    (Node.add_child exRoot exLeafA).1.children = exRoot.children ++ [exLeafA] ∧
      (Node.add_child exRoot exLeafA).2 =
        (Node.preorder exLeafA).filterMap Node.addedEventOf ∧
      Node.remove_child exRoot 0 =
        some (Node.mk exRoot.transform exRoot.component exRoot.rel_min_dimensions
            exRoot.global_transform exRoot.dimensions (exRoot.children.eraseIdx 0),
          (Node.preorder (exRoot.children.get ⟨0, by decide⟩)).filterMap
            Node.removedEventOf) :=
  lifecycle_callbacks_preorder exRoot exLeafA 0 (by decide)

/-- C4: at a node whose component is a non-Empty variant, the update pass
performs exactly one component update callback invocation, and the node it
passes (`self`, the only argument the source passes) already carries the derived
state of this frame: the freshly composed global transform and the fully
aggregated box.  `Node::update` has no application-context parameter, so the
embedding has no application value to pass; the claim that the owning
application context is also passed fails against the source. -/
theorem update_callback_receives_finalized_node :
    (Node.update id exLeafA exPrev).2 =
        [UEvent.updateCall (Node.update id exLeafA exPrev).1] ∧
      ((Node.update id exLeafA exPrev).1).global_transform =
        Node.updatedGlobal exLeafA exPrev ∧
      ((Node.update id exLeafA exPrev).1).dimensions =
        Node.seedBox exLeafA exPrev := by
  refine ⟨?_, ?_, ?_⟩
  · rfl
  · exact Node.update_global id (fun _ => rfl) exLeafA exPrev
  · rw [Node.update_dimensions id (fun _ => rfl) exLeafA exPrev]
    rfl

/-- C5: the render traversal visits the tree in pre-order (parent before its
children, sibling subtrees in list order), invoking the `render` callback with
the unchanged application reference and the variant payload exactly at the
non-Empty-component nodes and recursing into every child regardless; it is a
read-only traversal of the tree, modelled as a pure trace function. -/
theorem draw_traversal_preorder {α : Type} (app : α) (n : Node) :
    Node.draw_node app n =
      (Node.preorder n).filterMap (Node.renderEventOf app) := by
  induction n using Node.strongInd with
  | h t comp rel g d children ih =>
    simp only [Node.draw_node]
    rw [Node.preorder_eq, Node.children_mk, List.filterMap_cons,
      Node.drawChildren_eq app children ih]
    cases comp <;> simp [Node.renderEventOf]

end ForteWorld
